import Mathlib

/-!
Shallow embedding of the core text-processing functions of the `sec_helper`
repository (file `sec_helper/sec_helper_functions.py`): the document
segmenter `find_documents` (lines 123-146), the HTML text extractor
`extract_text_from_html` (lines 149-167) and the assembler loop of
`get_8K_filing_and_exhibits` (lines 170-202).

Python strings are modelled as `List Char`.  The regular-expression scans of
the source use only the literal patterns `<DOCUMENT>`, `</DOCUMENT>` and the
pattern `<TYPE>[^\n]+`; they are modelled by fuel-indexed scanners that move
through the text exactly as `re.finditer` / `re.findall` do on these
patterns.  Python `dict`s are modelled as insertion-ordered association
lists with CPython update semantics.
-/

/-- Python strings are modelled as lists of characters. -/
abbrev Str := List Char

/-- The literal pattern `<DOCUMENT>` (`doc_start_pattern`, source line 133). -/
def docStartTag : Str := ['<', 'D', 'O', 'C', 'U', 'M', 'E', 'N', 'T', '>']

/-- The literal pattern `</DOCUMENT>` (`doc_end_pattern`, source line 134). -/
def docEndTag : Str := ['<', '/', 'D', 'O', 'C', 'U', 'M', 'E', 'N', 'T', '>']

/-- The literal part `<TYPE>` of the pattern `<TYPE>[^\n]+` (`type_pattern`, source line 135). -/
def typeTag : Str := ['<', 'T', 'Y', 'P', 'E', '>']

/-- Fuel-indexed scan for all non-overlapping matches of a literal pattern
`pat`, left to right, returning the start offset of every match: exactly the
behaviour of `re.finditer` for a pattern without metacharacters - after a
match the scan resumes right after the matched text, otherwise it advances by
one character.  The fuel argument only makes the recursion structural
(`literalFinditer` supplies enough fuel for the scan to run to the end), and
the `pat ≠ []` conjunct only keeps the fuel consumption meaningful; every
pattern used in this file is a fixed nonempty literal. -/
def literalFinditerAux (pat : Str) : Nat → Str → Nat → List Nat
  | _, [], _ => []
  | 0, _ :: _, _ => []
  | fuel + 1, c :: rest, i =>
    if pat.isPrefixOf (c :: rest) ∧ pat ≠ [] then
      i :: literalFinditerAux pat fuel (rest.drop (pat.length - 1)) (i + pat.length)
    else
      literalFinditerAux pat fuel rest (i + 1)

/-- All match start offsets of the literal pattern `pat` in `raw`, in order. -/
def literalFinditer (pat raw : Str) : List Nat :=
  literalFinditerAux pat raw.length raw 0

/-- Fuel-indexed scan for `re.findall` of the pattern `<TYPE>[^\n]+`: at a
position where `<TYPE>` occurs followed by at least one character other than
a newline, the greedy match `<TYPE>` plus the run of non-newline characters
is produced and the scan resumes right after that run; at any other position
the scan advances by one character. -/
def typeFindallAux : Nat → Str → List Str
  | _, [] => []
  | 0, _ :: _ => []
  | fuel + 1, c :: rest =>
    if typeTag.isPrefixOf (c :: rest) then
      let run := ((c :: rest).drop typeTag.length).takeWhile (fun ch => ch != '\n')
      if run = [] then
        typeFindallAux fuel rest
      else
        (typeTag ++ run) :: typeFindallAux fuel (((c :: rest).drop typeTag.length).drop run.length)
    else
      typeFindallAux fuel rest

/-- All matches of `<TYPE>[^\n]+` in `raw`, in order, as matched strings. -/
def typeFindall (raw : Str) : List Str :=
  typeFindallAux raw.length raw

/-- Assignment `d[k] = v` on a Python `dict`, modelled on an insertion-ordered
association list: an existing key keeps its position and receives the new
value, a new key is appended at the end (CPython dict semantics). -/
def pyInsert (d : List (Str × Str)) (k v : Str) : List (Str × Str) :=
  match d with
  | [] => [(k, v)]
  | (k0, v0) :: rest => if k0 = k then (k0, v) :: rest else (k0, v0) :: pyInsert rest k v

/-- Building a Python `dict` from a list of (key, value) pairs by repeated
assignment, starting from the dict `acc`. -/
def pyFoldD (acc : List (Str × Str)) (ps : List (Str × Str)) : List (Str × Str) :=
  ps.foldl (fun d p => pyInsert d p.1 p.2) acc

/-- Reading `d[k]` from the association-list model of a Python `dict`. -/
def lookupKey : List (Str × Str) → Str → Option Str
  | [], _ => none
  | (k0, v) :: rest, k => if k0 = k then some v else lookupKey rest k

/-- Source line 137: `doc_start_is = [x.end() for x in doc_start_pattern.finditer(raw_text)]`;
the end offset of a literal match is its start offset plus the pattern length. -/
def doc_start_is (raw : Str) : List Nat :=
  (literalFinditer docStartTag raw).map (· + docStartTag.length)

/-- Source line 138: `doc_end_is = [x.start() for x in doc_end_pattern.finditer(raw_text)]`. -/
def doc_end_is (raw : Str) : List Nat :=
  literalFinditer docEndTag raw

/-- Source line 140: `doc_types = [x[len('<TYPE>'):] for x in type_pattern.findall(raw_text)]`. -/
def doc_types (raw : Str) : List Str :=
  (typeFindall raw).map (List.drop typeTag.length)

/-- The triples (type, start, end) iterated by the `zip` loop of
`find_documents` (source line 143); `zip` truncates to the shortest list. -/
def docTriples (raw : Str) : List (Str × Nat × Nat) :=
  (doc_types raw).zip ((doc_start_is raw).zip (doc_end_is raw))

/-- The (key, body) pairs the loop of `find_documents` assigns: the body is
the Python slice `raw_text[doc_start:doc_end]`. -/
def docEntries (raw : Str) : List (Str × Str) :=
  (docTriples raw).map (fun t => (t.1, (raw.drop t.2.1).take (t.2.2 - t.2.1)))

/-- Embedding of `find_documents` (source lines 123-146): scan for the three
marker patterns, zip the resulting lists positionally, and assign the slice
`raw_text[doc_start:doc_end]` under the key `doc_type` into an (insertion
ordered, last write wins) dict. -/
def find_documents (raw_text : Str) : List (Str × Str) :=
  (docTriples raw_text).foldl
    (fun documents t => pyInsert documents t.1 ((raw_text.drop t.2.1).take (t.2.2 - t.2.1))) []

/-- The explicitly truncated form of `find_documents`: only the triples at
positions 0 .. min(len types, len starts, len ends) - 1 are used.  The zip in
the source performs exactly this truncation; this definition makes it
syntactically explicit for the malformed-container claim. -/
def find_documents_truncated (raw : Str) : List (Str × Str) :=
  let m := min (doc_types raw).length (min (doc_start_is raw).length (doc_end_is raw).length)
  (((doc_types raw).take m).zip (((doc_start_is raw).take m).zip ((doc_end_is raw).take m))).foldl
    (fun documents t => pyInsert documents t.1 ((raw.drop t.2.1).take (t.2.2 - t.2.1))) []

/-- A synthetic well-formed document block: a `<TYPE>` label line followed by
content, to be wrapped in `<DOCUMENT>` ... `</DOCUMENT>` markers. -/
structure Block where
  label : Str
  content : Str

/-- Rendering of one block in the legacy container format:
`<DOCUMENT><TYPE>` label newline content `</DOCUMENT>`. -/
def renderBlock (b : Block) : Str :=
  docStartTag ++ (typeTag ++ (b.label ++ ('\n' :: (b.content ++ docEndTag))))

/-- Rendering of a whole synthetic raw submission: the blocks in order. -/
def render : List Block → Str
  | [] => []
  | b :: bs => renderBlock b ++ render bs

/-- Well-formedness of a synthetic block: the type label is nonempty and free
of newlines (so the `<TYPE>[^\n]+` match is exactly the label), and neither
the label nor the content contains the tag-opening character `<` (so the only
container markup in the rendered text is the block delimiters themselves). -/
def WFBlock (b : Block) : Prop :=
  b.label ≠ [] ∧ '\n' ∉ b.label ∧ '<' ∉ b.label ∧ '<' ∉ b.content

/-- The (label, body) pairs a well-formed rendered submission segments into:
the body of each block is the exact slice of the raw text between the end of
its `<DOCUMENT>` marker and the start of its `</DOCUMENT>` marker, which is
the `<TYPE>` label line followed by the content. -/
def pairsOf (bs : List Block) : List (Str × Str) :=
  bs.map (fun b => (b.label, typeTag ++ (b.label ++ ('\n' :: b.content))))

/-- The start offsets of the `<DOCUMENT>` matches in a rendered submission
whose first block begins at offset `i`. -/
def startsList : List Block → Nat → List Nat
  | [], _ => []
  | b :: bs, i => i :: startsList bs (i + (renderBlock b).length)

/-- The start offsets of the `</DOCUMENT>` matches in a rendered submission
whose first block begins at offset `i`. -/
def endsList : List Block → Nat → List Nat
  | [], _ => []
  | b :: bs, i =>
    (i + docStartTag.length + typeTag.length + b.label.length + 1 + b.content.length)
      :: endsList bs (i + (renderBlock b).length)

/-- The label written inside a stored document body: the text between the
start of the body (which begins right after the `<DOCUMENT>` marker) and the
first line break, with the `<TYPE>` tag stripped. -/
def inBlockTypeLabel (body : Str) : Str :=
  (body.takeWhile (fun ch => ch != '\n')).drop typeTag.length

/-- Python whitespace for the regex class `\s` on ASCII text (the source
collapses whitespace with `re.sub("\s+", " ", text)`). -/
def isPyWS (c : Char) : Bool :=
  c = ' ' || c = '\t' || c = '\n' || c = '\r' || c = '\x0b' || c = '\x0c'

/-- Embedding of `re.sub("\s+", " ", text)` (source lines 162, 166): every
maximal run of whitespace characters is replaced by a single space. -/
def collapseWS : Str → Str
  | [] => []
  | [c] => if isPyWS c then [' '] else [c]
  | c1 :: c2 :: rest =>
    if isPyWS c1 && isPyWS c2 then collapseWS (c2 :: rest)
    else (if isPyWS c1 then ' ' else c1) :: collapseWS (c2 :: rest)

/-- Embedding of `" ".join(pieces)`: the pieces separated by single spaces. -/
def joinSpace : List Str → Str
  | [] => []
  | [s] => s
  | s :: r :: rest => s ++ ' ' :: joinSpace (r :: rest)

mutual
/-- A node of the parsed HTML document body.  Parsing itself is done in the
source by an external library (`scrapy.Selector`); the embedding works on the
parsed tree the two XPath queries of the source read from. -/
inductive Html where
  | text (s : Str)
  | elem (tag : Str) (children : HtmlList)
/-- A list of sibling HTML nodes (a separate inductive so that all functions
on the tree are plain structural recursions). -/
inductive HtmlList where
  | nil
  | cons (head : Html) (tail : HtmlList)
end

/-- The tag name `p` of the paragraph element. -/
def pTag : Str := ['p']

mutual
/-- All text nodes below a node, in document order: what the XPath query
`//text()` yields inside that node. -/
def allTexts : Html → List Str
  | .text s => [s]
  | .elem _ ch => allTextsList ch
/-- All text nodes below a list of sibling nodes, in document order. -/
def allTextsList : HtmlList → List Str
  | .nil => []
  | .cons h t => allTexts h ++ allTextsList t
end

mutual
/-- The text nodes having a `<p>` ancestor below a node, in document order:
what the XPath query `//p//text()` yields inside that node (each text node
once, switching to the full text collection at the outermost `<p>`). -/
def pTexts : Html → List Str
  | .text _ => []
  | .elem tag ch => if tag = pTag then allTextsList ch else pTextsList ch
/-- The text nodes having a `<p>` ancestor below a list of sibling nodes. -/
def pTextsList : HtmlList → List Str
  | .nil => []
  | .cons h t => pTexts h ++ pTextsList t
end

mutual
/-- The number of `<p>` elements below a node. -/
def countP : Html → Nat
  | .text _ => 0
  | .elem tag ch => (if tag = pTag then 1 else 0) + countPList ch
/-- The number of `<p>` elements below a list of sibling nodes. -/
def countPList : HtmlList → Nat
  | .nil => 0
  | .cons h t => countP h + countPList t
end

/-- The paragraph-scoped extraction result for a document body: the text
nodes under `<p>` elements joined with single spaces, whitespace collapsed
(source lines 161-162). -/
def pText (body : HtmlList) : Str :=
  collapseWS (joinSpace (pTextsList body))

/-- The whole-body extraction result: all text nodes of the body joined with
single spaces, whitespace collapsed (source lines 164-165). -/
def bodyText (body : HtmlList) : Str :=
  collapseWS (joinSpace (allTextsList body))

/-- Embedding of `extract_text_from_html` (source lines 149-167).  The
argument `body` is the parsed document body: the `Selector(text=html_text)`
parse and the `/html/body` prefix of both XPath expressions belong to the
external HTML library, so the embedding starts from the node list the two
queries walk.  `min_length` is a Python `int` and may be negative. -/
def extract_text_from_html (body : HtmlList) (min_length_extract_from_body : Int) : Str :=
  let text := collapseWS (joinSpace (pTextsList body))
  if text.length = 0 ∨ (text.length : Int) < min_length_extract_from_body then
    collapseWS (joinSpace (allTextsList body))
  else
    text

/-- Behaviour of the external lenient HTML parser on bare text, modelled from
the spec (section 4.2 step 1 demands lenient best-effort parsing; the parser
the source uses wraps stray bare text into a paragraph inside the document
body).  Used to state re-extraction from an already extracted plain string. -/
def parseBareText (s : Str) : HtmlList :=
  .cons (.elem pTag (.cons (.text s) .nil)) .nil

/-- The result of `get_8K_filing_and_exhibits`: a Python function returning
either the pair `(form_8k_keys, form_8k_string)` or `form_8k_string` alone. -/
inductive Result8K where
  | withKeys (keys text : Str)
  | textOnly (text : Str)
deriving DecidableEq

/-- The filter of the assembler loop (source line 195):
`re.match("8-K", key) or re.match("EX-", key)`; both patterns are literals,
so `re.match` tests that the key starts with them. -/
def matches8KorEX (key : Str) : Bool :=
  "8-K".data.isPrefixOf key || "EX-".data.isPrefixOf key

/-- Embedding of the assembler loop and return of `get_8K_filing_and_exhibits`
(source lines 187-202).  The network fetch is replaced by the already
segmented `docs` (the output of `find_documents` on the raw submission), and
`extractor` stands for the composition of the external HTML parse with
`extract_text_from_html` at the caller-supplied minimum length, which the
loop applies to a body only when `raw_html` is false. -/
def get_8K_filing_and_exhibits (docs : List (Str × Str)) (extractor : Str → Str)
    (raw_html : Bool) (separator_character : Str) (return_keys : Bool) : Result8K :=
  let acc := docs.foldl
    (fun acc p =>
      if matches8KorEX p.1 then
        (acc.1 ++ p.1 ++ separator_character,
         acc.2 ++ p.1 ++ [':'] ++ (if raw_html then p.2 else extractor p.2) ++ separator_character)
      else acc)
    ([], [])
  if return_keys then Result8K.withKeys acc.1 acc.2 else Result8K.textOnly acc.2

/-- The assembled text accumulator as the spec describes it (sections 3 and
4.3): for the matching entries in mapping order, the label, a colon, the raw
body or the extracted text, and the separator - every included entry,
including the last, followed by the separator. -/
def assembleTextSpec (docs : List (Str × Str)) (extractor : Str → Str)
    (raw_html : Bool) (sep : Str) : Str :=
  ((docs.filter (fun p => matches8KorEX p.1)).map
    (fun p => p.1 ++ [':'] ++ (if raw_html then p.2 else extractor p.2) ++ sep)).flatten

/-- The keys accumulator as the spec describes it: the matching labels in the
same order, each followed by the same separator. -/
def assembleKeysSpec (docs : List (Str × Str)) (sep : Str) : Str :=
  ((docs.filter (fun p => matches8KorEX p.1)).map (fun p => p.1 ++ sep)).flatten

/-- The end-to-end raw text of the spec scenario (spec section 8). -/
def rawScenario : Str :=
  "<DOCUMENT><TYPE>8-K\nfoo\n</DOCUMENT><DOCUMENT><TYPE>EX-99.1\nbar\n</DOCUMENT>".data

/-- A raw text with a stray `<TYPE>` line outside any document block. -/
def rawStrayType : Str :=
  "<TYPE>X\n<DOCUMENT><TYPE>Y\nb</DOCUMENT>".data

/-- A malformed raw text: two `<DOCUMENT>` markers, one `</DOCUMENT>` marker
and one `<TYPE>` label. -/
def rawMalformed : Str :=
  "<DOCUMENT><TYPE>A\nx</DOCUMENT><DOCUMENT>".data

/-- A small demonstration document body: a non-paragraph element with text,
followed by a paragraph with text. -/
def demoBody : HtmlList :=
  .cons (.elem ['d', 'i', 'v'] (.cons (.text ['x', 'x']) .nil))
    (.cons (.elem pTag (.cons (.text ['h', 'e', 'l', 'l', 'o']) .nil)) .nil)

/-- A demonstration document body containing no paragraph element at all. -/
def demoBodyNoP : HtmlList :=
  .cons (.elem ['d', 'i', 'v'] (.cons (.text ['r', 'a', 'w']) .nil)) .nil

/-- Two demonstration blocks with distinct labels. -/
def demoBlocks : List Block :=
  [⟨['8', '-', 'K'], ['f', 'o', 'o']⟩, ⟨['E', 'X', '-', '1'], ['b', 'a', 'r']⟩]

/-- Two demonstration blocks sharing the label `8-K` with different bodies. -/
def demoDupBlocks : List Block :=
  [⟨['8', '-', 'K'], ['o', 'l', 'd']⟩, ⟨['8', '-', 'K'], ['n', 'e', 'w']⟩]

/-- A literal pattern matches nowhere strictly inside the region `A` of the
text `A ++ B` (matches may start at the first position of `B` or later). -/
def CanSkip (pat A B : Str) : Prop :=
  ∀ k, k < A.length → pat.isPrefixOf (A.drop k ++ B) = false

/-- Decidable sufficient condition for `CanSkip` that does not look at the
continuation: at every position of `seg` the pattern already disagrees with
`seg` itself at some offset inside `seg`. -/
def hasInnerMismatch (pat seg : Str) : Bool :=
  (List.range seg.length).all fun k =>
    (List.range pat.length).any fun j =>
      decide (k + j < seg.length) && decide (seg[k + j]? ≠ pat[j]?)

instance (b : Block) : Decidable (WFBlock b) := by
  unfold WFBlock
  infer_instance

/-! ### Whitespace collapsing: basic properties -/

/-- Collapsing keeps a non-whitespace head character in place. -/
theorem collapseWS_cons_not_ws (c : Char) (h : isPyWS c = false) (s : Str) :
    collapseWS (c :: s) = c :: collapseWS s := by
  cases s with
  | nil => simp [collapseWS, h]
  | cons c2 rest => simp [collapseWS, h]

/-- Whitespace collapsing is idempotent. -/
theorem collapseWS_idem (s : Str) : collapseWS (collapseWS s) = collapseWS s := by
  induction s with
  | nil => rfl
  | cons c s ih =>
    cases s with
    | nil =>
      by_cases hc : isPyWS c = true
      · simp [collapseWS, hc]
      · simp only [Bool.not_eq_true] at hc
        simp [collapseWS, hc]
    | cons c2 rest =>
      by_cases hc : isPyWS c = true
      · by_cases hc2 : isPyWS c2 = true
        · have step : collapseWS (c :: c2 :: rest) = collapseWS (c2 :: rest) := by
            simp [collapseWS, hc, hc2]
          rw [step]
          exact ih
        · simp only [Bool.not_eq_true] at hc2
          have step : collapseWS (c :: c2 :: rest) = ' ' :: collapseWS (c2 :: rest) := by
            simp [collapseWS, hc, hc2]
          rw [step, collapseWS_cons_not_ws c2 hc2]
          rw [collapseWS_cons_not_ws c2 hc2] at ih
          have step2 : collapseWS (' ' :: c2 :: collapseWS rest)
              = ' ' :: collapseWS (c2 :: collapseWS rest) := by
            simp [collapseWS, hc2]
          rw [step2, ih]
      · simp only [Bool.not_eq_true] at hc
        rw [collapseWS_cons_not_ws c hc, collapseWS_cons_not_ws c hc, ih]

/-! ### Extraction: the two-tier dispatch -/

/-- Unfolding of the extractor: the condition of the source line 163 tested
on the paragraph-scoped text, the whole-body text as the fallback. -/
theorem extract_text_from_html_eq (body : HtmlList) (m : Int) :
    extract_text_from_html body m =
      if (pText body).length = 0 ∨ ((pText body).length : Int) < m then bodyText body
      else pText body := rfl

/-- The extractor always returns a whitespace-collapsed string. -/
theorem collapseWS_extract (body : HtmlList) (m : Int) :
    collapseWS (extract_text_from_html body m) = extract_text_from_html body m := by
  rw [extract_text_from_html_eq]
  split
  · exact collapseWS_idem _
  · exact collapseWS_idem _

mutual
/-- A node below which no `<p>` element occurs contributes no paragraph text. -/
theorem pTexts_of_countP_zero : ∀ h : Html, countP h = 0 → pTexts h = []
  | .text _, _ => rfl
  | .elem tag ch, h0 => by
    have htag : ¬ tag = pTag := by
      intro he
      simp [countP, he] at h0
    have hch : countPList ch = 0 := by simpa [countP, htag] using h0
    simp [pTexts, htag, pTextsList_of_countPList_zero ch hch]
/-- Sibling nodes below which no `<p>` element occurs contribute no paragraph text. -/
theorem pTextsList_of_countPList_zero : ∀ hl : HtmlList, countPList hl = 0 → pTextsList hl = []
  | .nil, _ => rfl
  | .cons h t, h0 => by
    have h0' : countP h = 0 ∧ countPList t = 0 := by simpa [countPList] using h0
    simp [pTextsList, pTexts_of_countP_zero h h0'.1, pTextsList_of_countPList_zero t h0'.2]
end

/-- Re-extraction from a bare already-collapsed string returns it unchanged,
whatever the minimum length is. -/
theorem extract_parseBareText (s : Str) (m : Int) (h : collapseWS s = s) :
    extract_text_from_html (parseBareText s) m = s := by
  have hp : pTextsList (parseBareText s) = [s] := by
    simp [parseBareText, pTextsList, pTexts, allTextsList, allTexts]
  have ha : allTextsList (parseBareText s) = [s] := by
    simp [parseBareText, pTextsList, allTextsList, allTexts]
  have hpt : pText (parseBareText s) = s := by simp [pText, hp, joinSpace, h]
  have hbt : bodyText (parseBareText s) = s := by simp [bodyText, ha, joinSpace, h]
  rw [extract_text_from_html_eq, hpt, hbt]
  split <;> rfl

/-- C2: for every html body and every min_length, `extract_text_from_html`
returns the whitespace-collapsed paragraph-scoped text exactly when that text
is nonempty with length at least min_length, and otherwise the collapsed
whole-body text; with zero `<p>` elements it returns the whole-body text (a
nonempty one when that text is long enough), and a sufficiently long nonempty
paragraph text is returned alone, ignoring non-paragraph body text. -/
theorem claim_C2 (body : HtmlList) (m : Int) :
    (extract_text_from_html body m =
      if pText body ≠ [] ∧ m ≤ ((pText body).length : Int) then pText body else bodyText body)
    ∧ (countPList body = 0 → extract_text_from_html body m = bodyText body)
    ∧ (countPList body = 0 → 1 ≤ m → m ≤ ((bodyText body).length : Int) →
        extract_text_from_html body m ≠ [])
    ∧ (pText body ≠ [] → m ≤ ((pText body).length : Int) →
        extract_text_from_html body m = pText body) := by
  have key := extract_text_from_html_eq body m
  have main : extract_text_from_html body m =
      if pText body ≠ [] ∧ m ≤ ((pText body).length : Int) then pText body
      else bodyText body := by
    rw [key]
    by_cases h1 : (pText body).length = 0 ∨ ((pText body).length : Int) < m
    · rw [if_pos h1, if_neg]
      rintro ⟨hne, hle⟩
      rcases h1 with h1 | h1
      · exact hne (List.length_eq_zero.mp h1)
      · omega
    · have h1' := h1
      push_neg at h1'
      rw [if_neg h1, if_pos]
      exact ⟨fun he => h1'.1 (by simp [he]), h1'.2⟩
  have noP : countPList body = 0 → extract_text_from_html body m = bodyText body := by
    intro h0
    have hp : pText body = [] := by
      simp [pText, pTextsList_of_countPList_zero body h0, joinSpace, collapseWS]
    rw [main, if_neg]
    rintro ⟨hne, _⟩
    exact hne hp
  refine ⟨main, noP, ?_, ?_⟩
  · intro h0 hm1 hmlen heq
    rw [noP h0] at heq
    rw [heq] at hmlen
    simp at hmlen
    omega
  · intro hne hle
    rw [main, if_pos ⟨hne, hle⟩]

/-- Witness for C2 at concrete bodies: paragraph text wins on `demoBody`
(ignoring the div text), the whole-body text is returned on the p-free
`demoBodyNoP` and is nonempty there. -/
theorem claim_C2_witness :
    extract_text_from_html demoBody 3 = pText demoBody
    ∧ extract_text_from_html demoBodyNoP 2 = bodyText demoBodyNoP
    ∧ extract_text_from_html demoBodyNoP 2 ≠ [] :=
  ⟨(claim_C2 demoBody 3).2.2.2 (by decide) (by decide),
   (claim_C2 demoBodyNoP 2).2.1 (by decide),
   (claim_C2 demoBodyNoP 2).2.2.1 (by decide) (by decide) (by decide)⟩

/-- C8 counterexample: called with the negative minimum length -1,
`extract_text_from_html` performs no validation and simply returns a string
(here the whole-body text of a paragraph-free body); the source contains no
check of `min_length_extract_from_body` and no raise statement at all. -/
theorem claim_C8_counterexample :
    extract_text_from_html demoBodyNoP (-1) = ['r', 'a', 'w'] := by decide

/-- C8 amended: for a negative min_length the extractor does not fail; it
runs the normal two-tier extraction, in which the length test can never
trigger, so the whole-body fallback fires exactly when the paragraph text is
empty. -/
theorem claim_C8_amended (body : HtmlList) (m : Int) (hm : m < 0) :
    extract_text_from_html body m =
      if pText body = [] then bodyText body else pText body := by
  rw [extract_text_from_html_eq]
  by_cases hp : pText body = []
  · rw [if_pos (Or.inl (by simp [hp])), if_pos hp]
  · rw [if_neg, if_neg hp]
    rintro (h0 | hlt)
    · exact hp (List.length_eq_zero.mp h0)
    · have : (0 : Int) ≤ ((pText body).length : Int) := Int.natCast_nonneg _
      omega

/-- Witness for C8 amended at a concrete body and negative minimum length. -/
theorem claim_C8_amended_witness :
    extract_text_from_html demoBody (-1)
      = if pText demoBody = [] then bodyText demoBody else pText demoBody :=
  claim_C8_amended demoBody (-1) (by decide)

/-- C9: the text extracted from any body is already whitespace-normalized,
and extracting from that already-normalized text again (parsed back in by the
lenient HTML parser) returns it unchanged: extracting twice equals extracting
once. -/
theorem claim_C9 (body : HtmlList) (s : Str) (m mr : Int)
    (h : s = extract_text_from_html body m) :
    collapseWS s = s ∧ extract_text_from_html (parseBareText s) mr = s := by
  subst h
  exact ⟨collapseWS_extract body m,
    extract_parseBareText _ _ (collapseWS_extract body m)⟩

/-- Witness for C9 at a concrete body, exercising also a minimum length that
forces the fallback tier on re-extraction. -/
theorem claim_C9_witness :
    collapseWS ['h', 'e', 'l', 'l', 'o'] = ['h', 'e', 'l', 'l', 'o']
    ∧ extract_text_from_html (parseBareText ['h', 'e', 'l', 'l', 'o']) 9
        = ['h', 'e', 'l', 'l', 'o'] :=
  claim_C9 demoBody ['h', 'e', 'l', 'l', 'o'] 3 9 (by decide)

/-! ### The assembler loop -/

/-- The fold of the assembler loop appends, to whatever is already
accumulated, exactly the filtered-and-concatenated view the spec describes. -/
theorem assembleLoop_eq (extractor : Str → Str) (raw_html : Bool) (sep : Str) :
    ∀ (docs : List (Str × Str)) (acc : Str × Str),
    docs.foldl
      (fun acc p =>
        if matches8KorEX p.1 then
          (acc.1 ++ p.1 ++ sep,
           acc.2 ++ p.1 ++ [':'] ++ (if raw_html then p.2 else extractor p.2) ++ sep)
        else acc) acc
    = (acc.1 ++ assembleKeysSpec docs sep,
       acc.2 ++ assembleTextSpec docs extractor raw_html sep) := by
  intro docs
  induction docs with
  | nil => intro acc; simp [assembleKeysSpec, assembleTextSpec]
  | cons p ps ih =>
    intro acc
    by_cases hm : matches8KorEX p.1
    · rw [List.foldl_cons, if_pos hm, ih]
      simp [assembleKeysSpec, assembleTextSpec, List.filter_cons, hm, List.append_assoc]
    · rw [List.foldl_cons, if_neg hm, ih]
      simp [assembleKeysSpec, assembleTextSpec, List.filter_cons, hm]

/-- C5: `get_8K_filing_and_exhibits` walks the segmented mapping in insertion
order and keeps exactly the entries whose label starts with `8-K` or `EX-`;
for each it appends label, colon, raw body or extracted text, and the
separator (so every kept entry, the last included, is followed by the
separator), builds the parallel keys string the same way, and returns the
pair (keys, text) when `return_keys` is set and the text alone otherwise. -/
theorem claim_C5 (docs : List (Str × Str)) (extractor : Str → Str)
    (raw_html : Bool) (sep : Str) :
    get_8K_filing_and_exhibits docs extractor raw_html sep true
      = Result8K.withKeys (assembleKeysSpec docs sep)
          (assembleTextSpec docs extractor raw_html sep)
    ∧ get_8K_filing_and_exhibits docs extractor raw_html sep false
      = Result8K.textOnly (assembleTextSpec docs extractor raw_html sep) := by
  have h := assembleLoop_eq extractor raw_html sep docs ([], [])
  constructor
  · simp only [get_8K_filing_and_exhibits, h]
    simp
  · simp only [get_8K_filing_and_exhibits, h]
    simp

/-- C1 counterexample: on the raw text of the end-to-end scenario, with
`raw_html` set and separator `|`, the pipeline of `find_documents` and the
assembler loop does NOT produce the output the spec names, because each
stored body starts right after the `<DOCUMENT>` marker and therefore still
carries its `<TYPE>` label line. -/
theorem claim_C1_counterexample :
    get_8K_filing_and_exhibits (find_documents rawScenario) (fun s => s) true ['|'] false
      ≠ Result8K.textOnly ("8-K:foo\n|EX-99.1:bar\n|".data) := by decide

/-- C1 amended: the scenario pipeline produces the assembled string in which
each body is the exact slice between the markers, hence includes its `<TYPE>`
label line. -/
theorem claim_C1_amended :
    get_8K_filing_and_exhibits (find_documents rawScenario) (fun s => s) true ['|'] false
      = Result8K.textOnly ("8-K:<TYPE>8-K\nfoo\n|EX-99.1:<TYPE>EX-99.1\nbar\n|".data) := by
  decide

/-- C7 counterexample: the type labels are scanned over the whole raw text,
not inside each block, so with a stray `<TYPE>` line before the first block
the single stored entry is keyed by the stray label `X` while the label
written inside its block is `Y`. -/
theorem claim_C7_counterexample :
    ¬ (∀ p ∈ find_documents rawStrayType, p.1 = inBlockTypeLabel p.2) := by decide

/-! ### Truncation behaviour of the segmenter -/

/-- Taking the same prefix length commutes with zipping. -/
theorem take_zip_take {α β : Type} :
    ∀ (a : List α) (b : List β) (n : Nat), (a.take n).zip (b.take n) = (a.zip b).take n := by
  intro a
  induction a with
  | nil => intro b n; simp
  | cons x xs ih =>
    intro b n
    cases b with
    | nil => simp
    | cons y ys =>
      cases n with
      | zero => simp
      | succ n => simp [List.take_succ_cons, ih]

/-- The dict built by `find_documents` is the fold of the sliced entries. -/
theorem find_documents_eq_pyFoldD (raw : Str) :
    find_documents raw = pyFoldD [] (docEntries raw) := by
  simp [find_documents, docEntries, pyFoldD, List.foldl_map]

/-- A dict assignment grows the dict by at most one entry. -/
theorem pyInsert_length_le (d : List (Str × Str)) (k v : Str) :
    (pyInsert d k v).length ≤ d.length + 1 := by
  induction d with
  | nil => simp [pyInsert]
  | cons p rest ih =>
    obtain ⟨k0, v0⟩ := p
    by_cases h : k0 = k
    · simp [pyInsert, h]
    · simp only [pyInsert, if_neg h, List.length_cons]
      omega

/-- Building a dict from a pair list yields at most one entry per pair. -/
theorem pyFoldD_length_le :
    ∀ (ps : List (Str × Str)) (acc : List (Str × Str)),
    (pyFoldD acc ps).length ≤ acc.length + ps.length := by
  intro ps
  induction ps with
  | nil => intro acc; simp [pyFoldD]
  | cons p rest ih =>
    intro acc
    have h1 := ih (pyInsert acc p.1 p.2)
    have h2 := pyInsert_length_le acc p.1 p.2
    simp only [pyFoldD, List.foldl_cons] at h1 ⊢
    simp only [List.length_cons]
    omega

/-- C4: on any raw text whose three marker scans disagree in length,
`find_documents` runs to completion with no error (it is a total function of
the raw text), uses only the triples up to the length of the shortest scan -
as made explicit by `find_documents_truncated` - and stores at most that many
entries, silently dropping all excess matches. -/
theorem claim_C4 (raw : Str)
    (_hmis : ¬ ((doc_types raw).length = (doc_start_is raw).length
        ∧ (doc_start_is raw).length = (doc_end_is raw).length)) :
    find_documents raw = find_documents_truncated raw
    ∧ (find_documents raw).length
        ≤ min (doc_types raw).length (min (doc_start_is raw).length (doc_end_is raw).length) := by
  constructor
  · have hz : (((doc_types raw).take
          (min (doc_types raw).length (min (doc_start_is raw).length (doc_end_is raw).length))).zip
        (((doc_start_is raw).take
          (min (doc_types raw).length (min (doc_start_is raw).length (doc_end_is raw).length))).zip
        ((doc_end_is raw).take
          (min (doc_types raw).length (min (doc_start_is raw).length (doc_end_is raw).length)))))
        = docTriples raw := by
      rw [take_zip_take, take_zip_take, docTriples]
      apply List.take_of_length_le
      simp [List.length_zip]
    rw [find_documents, find_documents_truncated]
    rw [hz]
  · rw [find_documents_eq_pyFoldD]
    have h1 := pyFoldD_length_le (docEntries raw) []
    simp only [List.length_nil, Nat.zero_add] at h1
    have h2 : (docEntries raw).length = (docTriples raw).length := by
      simp [docEntries]
    have h3 : (docTriples raw).length
        = min (doc_types raw).length (min (doc_start_is raw).length (doc_end_is raw).length) := by
      rw [docTriples, List.length_zip, List.length_zip]
    omega

/-- Witness for C4: a raw text with two `<DOCUMENT>` markers but a single
`</DOCUMENT>` marker and a single `<TYPE>` label; the scans disagree and the
result truncates to one entry. -/
theorem claim_C4_witness :
    find_documents rawMalformed = find_documents_truncated rawMalformed
    ∧ (find_documents rawMalformed).length
        ≤ min (doc_types rawMalformed).length
            (min (doc_start_is rawMalformed).length (doc_end_is rawMalformed).length) :=
  claim_C4 rawMalformed (by decide)

/-! ### Pattern matching: basic facts about literal prefixes -/

/-- A list is a Boolean prefix of itself followed by anything. -/
theorem isPrefixOf_append_self : ∀ (p t : Str), p.isPrefixOf (p ++ t) = true := by
  intro p t
  induction p with
  | nil => simp [List.isPrefixOf]
  | cons c cs ih => simp [List.isPrefixOf, ih]

/-- A Boolean prefix is an initial segment. -/
theorem eq_append_of_isPrefixOf : ∀ (p s : Str), p.isPrefixOf s = true → ∃ t, s = p ++ t := by
  intro p
  induction p with
  | nil => intro s _; exact ⟨s, rfl⟩
  | cons c cs ih =>
    intro s h
    cases s with
    | nil => simp [List.isPrefixOf] at h
    | cons b bs =>
      simp only [List.isPrefixOf, Bool.and_eq_true, beq_iff_eq] at h
      obtain ⟨t, ht⟩ := ih bs h.2
      exact ⟨t, by simp [h.1, ht]⟩

/-- A prefix pins down the characters of the text at every offset it covers. -/
theorem getElem?_eq_of_isPrefixOf (p s : Str) (h : p.isPrefixOf s = true)
    (j : Nat) (hj : j < p.length) : s[j]? = p[j]? := by
  obtain ⟨t, rfl⟩ := eq_append_of_isPrefixOf p s h
  exact List.getElem?_append_left hj

/-! ### The literal scanner: fuel irrelevance, skipping, matching -/

/-- The literal scanner does not depend on the fuel once the fuel covers the
length of the text. -/
theorem literalFinditerAux_fuel (pat : Str) :
    ∀ (f1 f2 : Nat) (text : Str) (i : Nat), text.length ≤ f1 → text.length ≤ f2 →
    literalFinditerAux pat f1 text i = literalFinditerAux pat f2 text i := by
  intro f1
  induction f1 with
  | zero =>
    intro f2 text i h1 _
    have : text = [] := by
      cases text with
      | nil => rfl
      | cons c r => simp at h1
    subst this
    simp [literalFinditerAux]
  | succ n ih =>
    intro f2 text i h1 h2
    cases text with
    | nil => simp [literalFinditerAux]
    | cons c rest =>
      cases f2 with
      | zero => simp at h2
      | succ m =>
        simp only [literalFinditerAux]
        by_cases hc : pat.isPrefixOf (c :: rest) = true ∧ pat ≠ []
        · rw [if_pos hc, if_pos hc]
          congr 1
          apply ih
          · have := List.length_drop (pat.length - 1) rest
            simp only [List.length_cons] at h1
            omega
          · have := List.length_drop (pat.length - 1) rest
            simp only [List.length_cons] at h2
            omega
        · rw [if_neg hc, if_neg hc]
          apply ih
          · simp only [List.length_cons] at h1; omega
          · simp only [List.length_cons] at h2; omega

/-- Scanning a text whose region `A` contains no match start runs through `A`
and continues on the remainder with the position advanced by the length of
`A`. -/
theorem literalFinditerAux_skip (pat : Str) :
    ∀ (A B : Str) (i f1 f2 : Nat), CanSkip pat A B →
    (A ++ B).length ≤ f1 → B.length ≤ f2 →
    literalFinditerAux pat f1 (A ++ B) i = literalFinditerAux pat f2 B (i + A.length) := by
  intro A
  induction A with
  | nil =>
    intro B i f1 f2 _ h1 h2
    simpa using literalFinditerAux_fuel pat f1 f2 B i (by simpa using h1) h2
  | cons a A ih =>
    intro B i f1 f2 hsk h1 h2
    have hne : pat.isPrefixOf (a :: (A ++ B)) = false := by
      have := hsk 0 (by simp)
      simpa using this
    cases f1 with
    | zero => simp at h1
    | succ n =>
      rw [List.cons_append]
      simp only [literalFinditerAux]
      rw [if_neg (by rintro ⟨hp, _⟩; rw [hne] at hp; exact Bool.false_ne_true hp)]
      have hsk' : CanSkip pat A B := by
        intro k hk
        have := hsk (k + 1) (by simp; omega)
        simpa [List.drop_succ_cons] using this
      rw [ih B (i + 1) n f2 hsk' (by simpa using Nat.le_of_succ_le_succ (by simpa using h1)) h2]
      congr 1
      simp
      omega

/-- At a position where the pattern itself begins, the scanner records the
position and resumes right after the matched pattern. -/
theorem literalFinditerAux_match (pat rest : Str) (hp : pat ≠ []) (i f1 f2 : Nat)
    (h1 : (pat ++ rest).length ≤ f1) (h2 : rest.length ≤ f2) :
    literalFinditerAux pat f1 (pat ++ rest) i
      = i :: literalFinditerAux pat f2 rest (i + pat.length) := by
  cases pat with
  | nil => exact absurd rfl hp
  | cons p pt =>
    cases f1 with
    | zero => simp at h1
    | succ n =>
      rw [List.cons_append]
      simp only [literalFinditerAux]
      rw [if_pos ⟨by rw [← List.cons_append]; exact isPrefixOf_append_self (p :: pt) rest,
        by simp⟩]
      congr 1
      have hd : (pt ++ rest).drop ((p :: pt).length - 1) = rest := by
        have he : (p :: pt).length - 1 = pt.length := by simp
        rw [he, List.drop_left]
      rw [hd]
      apply literalFinditerAux_fuel
      · simp only [List.length_cons, List.length_append] at h1
        omega
      · exact h2

/-! ### The type-label scanner: fuel irrelevance, skipping, matching -/

/-- Dropping never lengthens a list. -/
theorem length_drop_le {α : Type} (l : List α) (k : Nat) : (l.drop k).length ≤ l.length := by
  rw [List.length_drop]
  omega

/-- After dropping the `<TYPE>` tag from a nonempty text, at most the tail of
the text remains. -/
theorem length_drop_typeTag_le (c : Char) (rest : Str) :
    ((c :: rest).drop typeTag.length).length ≤ rest.length := by
  rw [List.length_drop]
  simp [typeTag]

/-- The type-label scanner does not depend on the fuel once the fuel covers
the length of the text. -/
theorem typeFindallAux_fuel :
    ∀ (f1 f2 : Nat) (text : Str), text.length ≤ f1 → text.length ≤ f2 →
    typeFindallAux f1 text = typeFindallAux f2 text := by
  intro f1
  induction f1 with
  | zero =>
    intro f2 text h1 _
    have : text = [] := by
      cases text with
      | nil => rfl
      | cons c r => simp at h1
    subst this
    simp [typeFindallAux]
  | succ n ih =>
    intro f2 text h1 h2
    cases text with
    | nil => simp [typeFindallAux]
    | cons c rest =>
      cases f2 with
      | zero => simp at h2
      | succ m =>
        simp only [typeFindallAux]
        by_cases hc : typeTag.isPrefixOf (c :: rest) = true
        · rw [if_pos hc, if_pos hc]
          by_cases hr : ((c :: rest).drop typeTag.length).takeWhile (fun ch => ch != '\n') = []
          · rw [if_pos hr, if_pos hr]
            apply ih
            · simp only [List.length_cons] at h1; omega
            · simp only [List.length_cons] at h2; omega
          · rw [if_neg hr, if_neg hr]
            congr 1
            have b1 := length_drop_le ((c :: rest).drop typeTag.length)
              (((c :: rest).drop typeTag.length).takeWhile (fun ch => ch != '\n')).length
            have b2 := length_drop_typeTag_le c rest
            apply ih
            · simp only [List.length_cons] at h1
              omega
            · simp only [List.length_cons] at h2
              omega
        · rw [if_neg hc, if_neg hc]
          apply ih
          · simp only [List.length_cons] at h1; omega
          · simp only [List.length_cons] at h2; omega

/-- The type-label scanner runs through a region without `<TYPE>` matches and
continues on the remainder. -/
theorem typeFindallAux_skip :
    ∀ (A B : Str) (f1 f2 : Nat), CanSkip typeTag A B →
    (A ++ B).length ≤ f1 → B.length ≤ f2 →
    typeFindallAux f1 (A ++ B) = typeFindallAux f2 B := by
  intro A
  induction A with
  | nil =>
    intro B f1 f2 _ h1 h2
    exact typeFindallAux_fuel f1 f2 B (by simpa using h1) h2
  | cons a A ih =>
    intro B f1 f2 hsk h1 h2
    have hne : typeTag.isPrefixOf (a :: (A ++ B)) = false := by
      have := hsk 0 (by simp)
      simpa using this
    cases f1 with
    | zero => simp at h1
    | succ n =>
      rw [List.cons_append]
      simp only [typeFindallAux]
      rw [if_neg (by rw [hne]; exact Bool.false_ne_true)]
      have hsk' : CanSkip typeTag A B := by
        intro k hk
        have := hsk (k + 1) (by simp; omega)
        simpa [List.drop_succ_cons] using this
      apply ih B n f2 hsk' _ h2
      simp only [List.cons_append, List.length_cons] at h1
      omega

/-- takeWhile runs through a satisfying prefix and stops at the first
failing element. -/
theorem takeWhile_append_cons (p : Char → Bool) :
    ∀ (l : Str), (∀ x ∈ l, p x = true) → ∀ (y : Char), p y = false → ∀ (rest : Str),
    (l ++ y :: rest).takeWhile p = l := by
  intro l
  induction l with
  | nil =>
    intro _ y hy rest
    simp [List.takeWhile_cons, hy]
  | cons x t ih =>
    intro hall y hy rest
    have hx : p x = true := hall x (List.mem_cons_self x t)
    simp only [List.cons_append, List.takeWhile_cons, hx, if_true]
    rw [ih (fun z hz => hall z (List.mem_cons_of_mem x hz)) y hy rest]

/-- At a `<TYPE>` occurrence followed by the newline-free nonempty label `l`
and then a newline, the type-label scanner emits the greedy match `<TYPE>`
followed by `l` and resumes at the newline. -/
theorem typeFindallAux_match (l rest : Str) (hl : l ≠ []) (hnl : '\n' ∉ l) (f1 f2 : Nat)
    (h1 : (typeTag ++ (l ++ ('\n' :: rest))).length ≤ f1)
    (h2 : ('\n' :: rest).length ≤ f2) :
    typeFindallAux f1 (typeTag ++ (l ++ ('\n' :: rest)))
      = (typeTag ++ l) :: typeFindallAux f2 ('\n' :: rest) := by
  cases f1 with
  | zero => simp [typeTag] at h1
  | succ n =>
    have hshape : typeTag ++ (l ++ ('\n' :: rest))
        = '<' :: ('T' :: ('Y' :: ('P' :: ('E' :: ('>' :: (l ++ ('\n' :: rest))))))) := by
      simp [typeTag]
    rw [hshape]
    simp only [typeFindallAux]
    rw [if_pos (by simp [typeTag, List.isPrefixOf])]
    have hdrop6 : ('<' :: ('T' :: ('Y' :: ('P' :: ('E' :: ('>' :: (l ++ ('\n' :: rest)))))))).drop
        typeTag.length = l ++ ('\n' :: rest) := by
      simp [typeTag]
    rw [hdrop6]
    have hrun : (l ++ ('\n' :: rest)).takeWhile (fun ch => ch != '\n') = l := by
      apply takeWhile_append_cons
      · intro x hx
        simp only [bne_iff_ne, ne_eq, decide_eq_true_eq]
        intro he
        exact hnl (he ▸ hx)
      · simp
    rw [hrun]
    rw [if_neg hl]
    have hdropl : (l ++ ('\n' :: rest)).drop l.length = '\n' :: rest := List.drop_left l _
    rw [hdropl]
    congr 1
    apply typeFindallAux_fuel
    · simp only [List.length_append, List.length_cons, typeTag] at h1 ⊢
      simp at h1
      omega
    · exact h2

/-! ### Establishing CanSkip regions -/

/-- A mismatch inside the segment refutes a match regardless of what follows
the segment. -/
theorem canSkip_of_inner (pat seg : Str) (h : hasInnerMismatch pat seg = true) (B : Str) :
    CanSkip pat seg B := by
  intro k hk
  rw [← Bool.not_eq_true]
  intro hpre
  have hx := (List.all_eq_true.mp h) k (List.mem_range.mpr hk)
  obtain ⟨j, hjr, hj⟩ := List.any_eq_true.mp hx
  rw [Bool.and_eq_true, decide_eq_true_eq, decide_eq_true_eq] at hj
  have hjlt : j < pat.length := List.mem_range.mp hjr
  have hpin := getElem?_eq_of_isPrefixOf pat (seg.drop k ++ B) hpre j hjlt
  have hjseg : j < (seg.drop k).length := by
    rw [List.length_drop]
    omega
  rw [List.getElem?_append_left hjseg, List.getElem?_drop] at hpin
  exact hj.2 hpin

/-- A pattern starting with `<` matches nowhere inside a `<`-free segment. -/
theorem canSkip_lt_free (pat seg : Str) (h0 : pat[0]? = some '<')
    (hseg : ∀ ch ∈ seg, ch ≠ '<') (B : Str) : CanSkip pat seg B := by
  intro k hk
  rw [← Bool.not_eq_true]
  intro hpre
  have h0lt : 0 < pat.length := by
    cases pat with
    | nil => simp at h0
    | cons p pt => simp
  have hpin := getElem?_eq_of_isPrefixOf pat (seg.drop k ++ B) hpre 0 h0lt
  have h0seg : 0 < (seg.drop k).length := by
    rw [List.length_drop]
    omega
  rw [List.getElem?_append_left h0seg, List.getElem?_drop] at hpin
  rw [h0] at hpin
  have hkk : seg[k + 0]? = some seg[k] := by
    simp [List.getElem?_eq_getElem hk]
  rw [hkk] at hpin
  have : seg[k] ∈ seg := List.getElem_mem hk
  exact hseg _ this (by simpa using hpin)

/-- Skippable regions compose. -/
theorem canSkip_append (pat A1 A2 B : Str) (h1 : CanSkip pat A1 (A2 ++ B))
    (h2 : CanSkip pat A2 B) : CanSkip pat (A1 ++ A2) B := by
  intro k hk
  rw [List.length_append] at hk
  by_cases hlt : k < A1.length
  · have hd : (A1 ++ A2).drop k = A1.drop k ++ A2 :=
      List.drop_append_of_le_length (Nat.le_of_lt hlt)
    rw [hd, List.append_assoc]
    exact h1 k hlt
  · have hge := Nat.le_of_not_lt hlt
    have hk2 : k - A1.length < A2.length := by omega
    have hd : (A1 ++ A2).drop k = A2.drop (k - A1.length) := by
      have he : k = A1.length + (k - A1.length) := by omega
      rw [he, List.drop_append]
      congr 1
      omega
    rw [hd]
    exact h2 _ hk2

/-- The `<DOCUMENT>` pattern matches nowhere inside `<TYPE>`. -/
theorem canSkip_start_in_type (B : Str) : CanSkip docStartTag typeTag B :=
  canSkip_of_inner _ _ (by decide) B

/-- The `<DOCUMENT>` pattern matches nowhere inside `</DOCUMENT>`. -/
theorem canSkip_start_in_end (B : Str) : CanSkip docStartTag docEndTag B :=
  canSkip_of_inner _ _ (by decide) B

/-- The `<DOCUMENT>` pattern does not match at a newline. -/
theorem canSkip_start_in_nl (B : Str) : CanSkip docStartTag ['\n'] B :=
  canSkip_of_inner _ _ (by decide) B

/-- The `</DOCUMENT>` pattern matches nowhere inside `<DOCUMENT>`. -/
theorem canSkip_end_in_start (B : Str) : CanSkip docEndTag docStartTag B :=
  canSkip_of_inner _ _ (by decide) B

/-- The `</DOCUMENT>` pattern matches nowhere inside `<TYPE>`. -/
theorem canSkip_end_in_type (B : Str) : CanSkip docEndTag typeTag B :=
  canSkip_of_inner _ _ (by decide) B

/-- The `</DOCUMENT>` pattern does not match at a newline. -/
theorem canSkip_end_in_nl (B : Str) : CanSkip docEndTag ['\n'] B :=
  canSkip_of_inner _ _ (by decide) B

/-- The `<TYPE>` pattern matches nowhere inside `<DOCUMENT>`. -/
theorem canSkip_type_in_start (B : Str) : CanSkip typeTag docStartTag B :=
  canSkip_of_inner _ _ (by decide) B

/-- The `<TYPE>` pattern matches nowhere inside `</DOCUMENT>`. -/
theorem canSkip_type_in_end (B : Str) : CanSkip typeTag docEndTag B :=
  canSkip_of_inner _ _ (by decide) B

/-- The `<TYPE>` pattern does not match at a newline. -/
theorem canSkip_type_in_nl (B : Str) : CanSkip typeTag ['\n'] B :=
  canSkip_of_inner _ _ (by decide) B

/-- The `<DOCUMENT>` pattern matches nowhere strictly inside the remainder of
a well-formed block after its start marker. -/
theorem canSkip_start_block (l c B : Str) (hl : ∀ ch ∈ l, ch ≠ '<') (hc : ∀ ch ∈ c, ch ≠ '<') :
    CanSkip docStartTag (typeTag ++ (l ++ (['\n'] ++ (c ++ docEndTag)))) B := by
  apply canSkip_append
  · exact canSkip_start_in_type _
  apply canSkip_append
  · exact canSkip_lt_free _ _ (by decide) hl _
  apply canSkip_append
  · exact canSkip_start_in_nl _
  apply canSkip_append
  · exact canSkip_lt_free _ _ (by decide) hc _
  · exact canSkip_start_in_end _

/-- The `</DOCUMENT>` pattern matches nowhere strictly inside a well-formed
block before its end marker. -/
theorem canSkip_end_block (l c B : Str) (hl : ∀ ch ∈ l, ch ≠ '<') (hc : ∀ ch ∈ c, ch ≠ '<') :
    CanSkip docEndTag (docStartTag ++ (typeTag ++ (l ++ (['\n'] ++ c)))) B := by
  apply canSkip_append
  · exact canSkip_end_in_start _
  apply canSkip_append
  · exact canSkip_end_in_type _
  apply canSkip_append
  · exact canSkip_lt_free _ _ (by decide) hl _
  apply canSkip_append
  · exact canSkip_end_in_nl _
  · exact canSkip_lt_free _ _ (by decide) hc _

/-- The `<TYPE>` pattern matches nowhere strictly inside the tail of a
well-formed block after its type-label line. -/
theorem canSkip_type_block_tail (c B : Str) (hc : ∀ ch ∈ c, ch ≠ '<') :
    CanSkip typeTag (['\n'] ++ (c ++ docEndTag)) B := by
  apply canSkip_append
  · exact canSkip_type_in_nl _
  apply canSkip_append
  · exact canSkip_lt_free _ _ (by decide) hc _
  · exact canSkip_type_in_end _

/-! ### The three scans on a rendered submission -/

/-- Characters of a list with the membership property of not being `<`. -/
theorem not_lt_of_not_mem (l : Str) (h : '<' ∉ l) : ∀ ch ∈ l, ch ≠ '<' := by
  intro ch hch he
  exact h (he ▸ hch)

/-- The `<DOCUMENT>` scan on a rendered submission yields exactly the block
start offsets. -/
theorem starts_scan :
    ∀ (bs : List Block) (i f : Nat), (∀ b ∈ bs, WFBlock b) → (render bs).length ≤ f →
    literalFinditerAux docStartTag f (render bs) i = startsList bs i := by
  intro bs
  induction bs with
  | nil =>
    intro i f _ _
    simp [render, startsList, literalFinditerAux]
  | cons b bs ih =>
    intro i f hwf hf
    obtain ⟨hlne, hlnl, hllt, hclt⟩ := hwf b (List.mem_cons_self b bs)
    have hsplit : render (b :: bs)
        = docStartTag ++ (typeTag ++ (b.label ++ ('\n' :: (b.content
            ++ (docEndTag ++ render bs))))) := by
      simp [render, renderBlock]
    rw [hsplit] at hf ⊢
    rw [literalFinditerAux_match docStartTag _ (by decide) i f
      (typeTag ++ (b.label ++ ('\n' :: (b.content ++ (docEndTag ++ render bs))))).length
      hf (Nat.le_refl _)]
    rw [startsList]
    congr 1
    have hshape : typeTag ++ (b.label ++ ('\n' :: (b.content ++ (docEndTag ++ render bs))))
        = (typeTag ++ (b.label ++ (['\n'] ++ (b.content ++ docEndTag)))) ++ render bs := by
      simp
    rw [hshape]
    rw [literalFinditerAux_skip docStartTag _ (render bs) _ _ (render bs).length
      (canSkip_start_block b.label b.content (render bs)
        (not_lt_of_not_mem _ hllt) (not_lt_of_not_mem _ hclt))
      (by rw [← hshape]) (Nat.le_refl _)]
    rw [ih _ (render bs).length (fun x hx => hwf x (List.mem_cons_of_mem b hx)) (Nat.le_refl _)]
    congr 1
    simp [renderBlock, docStartTag, typeTag, docEndTag]
    omega

/-- The `</DOCUMENT>` scan on a rendered submission yields exactly the block
end-marker offsets. -/
theorem ends_scan :
    ∀ (bs : List Block) (i f : Nat), (∀ b ∈ bs, WFBlock b) → (render bs).length ≤ f →
    literalFinditerAux docEndTag f (render bs) i = endsList bs i := by
  intro bs
  induction bs with
  | nil =>
    intro i f _ _
    simp [render, endsList, literalFinditerAux]
  | cons b bs ih =>
    intro i f hwf hf
    obtain ⟨hlne, hlnl, hllt, hclt⟩ := hwf b (List.mem_cons_self b bs)
    have hsplit : render (b :: bs)
        = (docStartTag ++ (typeTag ++ (b.label ++ (['\n'] ++ b.content))))
            ++ (docEndTag ++ render bs) := by
      simp [render, renderBlock]
    rw [hsplit] at hf ⊢
    rw [literalFinditerAux_skip docEndTag _ _ i f (docEndTag ++ render bs).length
      (canSkip_end_block b.label b.content _
        (not_lt_of_not_mem _ hllt) (not_lt_of_not_mem _ hclt))
      hf (Nat.le_refl _)]
    rw [literalFinditerAux_match docEndTag (render bs) (by decide) _ _
      (render bs).length (Nat.le_refl _) (Nat.le_refl _)]
    rw [endsList]
    congr 1
    · simp [docStartTag, typeTag]
      omega
    · rw [ih _ (render bs).length (fun x hx => hwf x (List.mem_cons_of_mem b hx)) (Nat.le_refl _)]
      congr 1
      simp [renderBlock, docStartTag, typeTag, docEndTag]
      omega

/-- The `<TYPE>[^\n]+` scan on a rendered submission yields exactly the tag
plus label of every block, in order. -/
theorem types_scan :
    ∀ (bs : List Block) (f : Nat), (∀ b ∈ bs, WFBlock b) → (render bs).length ≤ f →
    typeFindallAux f (render bs) = bs.map (fun b => typeTag ++ b.label) := by
  intro bs
  induction bs with
  | nil =>
    intro f _ _
    simp [render, typeFindallAux]
  | cons b bs ih =>
    intro f hwf hf
    obtain ⟨hlne, hlnl, hllt, hclt⟩ := hwf b (List.mem_cons_self b bs)
    have hsplit : render (b :: bs)
        = docStartTag ++ (typeTag ++ (b.label
            ++ ('\n' :: (b.content ++ (docEndTag ++ render bs))))) := by
      simp [render, renderBlock]
    rw [hsplit] at hf ⊢
    rw [typeFindallAux_skip docStartTag _ f
      (typeTag ++ (b.label ++ ('\n' :: (b.content ++ (docEndTag ++ render bs))))).length
      (canSkip_type_in_start _) hf (Nat.le_refl _)]
    rw [typeFindallAux_match b.label (b.content ++ (docEndTag ++ render bs)) hlne hlnl _
      ('\n' :: (b.content ++ (docEndTag ++ render bs))).length (Nat.le_refl _) (Nat.le_refl _)]
    rw [List.map_cons]
    congr 1
    have hshape : '\n' :: (b.content ++ (docEndTag ++ render bs))
        = (['\n'] ++ (b.content ++ docEndTag)) ++ render bs := by
      simp
    rw [hshape]
    rw [typeFindallAux_skip _ (render bs) _ (render bs).length
      (canSkip_type_block_tail b.content _ (not_lt_of_not_mem _ hclt))
      (by rw [← hshape]) (Nat.le_refl _)]
    exact ih (render bs).length (fun x hx => hwf x (List.mem_cons_of_mem b hx)) (Nat.le_refl _)

/-- Zipping the three scan results of a rendered submission and slicing the
raw text between each start-marker end and end-marker start yields exactly
the (label, type-line plus content) pairs of the blocks.  The offset lists
are taken relative to an arbitrary already-consumed prefix `U`. -/
theorem entries_render :
    ∀ (bs : List Block) (U : Str),
    ((bs.map Block.label).zip
      (((startsList bs U.length).map (· + docStartTag.length)).zip (endsList bs U.length))).map
      (fun t => (t.1, ((U ++ render bs).drop t.2.1).take (t.2.2 - t.2.1)))
    = pairsOf bs := by
  intro bs
  induction bs with
  | nil => intro U; simp [pairsOf, startsList, endsList]
  | cons b bs ih =>
    intro U
    simp only [startsList, endsList, List.map_cons, List.zip_cons_cons, pairsOf]
    congr 1
    · have hdrop : (U ++ render (b :: bs)).drop (U.length + docStartTag.length)
          = (typeTag ++ (b.label ++ ('\n' :: b.content))) ++ (docEndTag ++ render bs) := by
        have h1 : U ++ render (b :: bs)
            = (U ++ docStartTag) ++ ((typeTag ++ (b.label ++ ('\n' :: b.content)))
                ++ (docEndTag ++ render bs)) := by
          simp [render, renderBlock]
        rw [h1]
        exact List.drop_left' (by simp)
      rw [hdrop]
      have htake : ((typeTag ++ (b.label ++ ('\n' :: b.content)))
            ++ (docEndTag ++ render bs)).take
          (U.length + docStartTag.length + typeTag.length + b.label.length + 1
            + b.content.length - (U.length + docStartTag.length))
          = typeTag ++ (b.label ++ ('\n' :: b.content)) := by
        apply List.take_left'
        simp only [List.length_append, List.length_cons]
        omega
      rw [htake]
    · have e1 : U.length + (renderBlock b).length = (U ++ renderBlock b).length := by simp
      have e2 : U ++ render (b :: bs) = (U ++ renderBlock b) ++ render bs := by
        simp [render]
      rw [e1, e2]
      exact ih (U ++ renderBlock b)

/-- On a well-formed rendered submission, `find_documents` is the Python-dict
fold of the (label, type-line plus content) pairs of the blocks, in order. -/
theorem find_documents_render (bs : List Block) (hwf : ∀ b ∈ bs, WFBlock b) :
    find_documents (render bs) = pyFoldD [] (pairsOf bs) := by
  rw [find_documents_eq_pyFoldD]
  congr 1
  have hts : doc_types (render bs) = bs.map Block.label := by
    rw [doc_types, typeFindall,
      types_scan bs (render bs).length hwf (Nat.le_refl _), List.map_map]
    apply List.map_congr_left
    intro b _
    simp [Function.comp, List.drop_left]
  have hss : doc_start_is (render bs) = (startsList bs 0).map (· + docStartTag.length) := by
    rw [doc_start_is, literalFinditer, starts_scan bs 0 (render bs).length hwf (Nat.le_refl _)]
  have hes : doc_end_is (render bs) = endsList bs 0 := by
    rw [doc_end_is, literalFinditer, ends_scan bs 0 (render bs).length hwf (Nat.le_refl _)]
  rw [docEntries, docTriples, hts, hss, hes]
  have h0 : (0 : Nat) = ([] : Str).length := rfl
  rw [h0]
  have hr : render bs = [] ++ render bs := rfl
  rw [hr]
  exact entries_render bs []
/-! ### The Python dict model -/

/-- Assigning a fresh key appends the entry at the end. -/
theorem pyInsert_not_mem :
    ∀ (d : List (Str × Str)) (k v : Str), k ∉ d.map Prod.fst →
    pyInsert d k v = d ++ [(k, v)] := by
  intro d
  induction d with
  | nil => intro k v _; rfl
  | cons p rest ih =>
    intro k v h
    obtain ⟨k0, v0⟩ := p
    simp only [List.map_cons, List.mem_cons, not_or] at h
    show (if k0 = k then (k0, v) :: rest else (k0, v0) :: pyInsert rest k v) = _
    rw [if_neg (show ¬ k0 = k from fun he => h.1 he.symm)]
    rw [List.cons_append, ih k v h.2]

/-- Folding pairwise-fresh keys into a dict just appends the pairs. -/
theorem pyFoldD_nodup :
    ∀ (ps acc : List (Str × Str)), ((acc ++ ps).map Prod.fst).Nodup →
    pyFoldD acc ps = acc ++ ps := by
  intro ps
  induction ps with
  | nil => intro acc _; simp [pyFoldD]
  | cons p rest ih =>
    intro acc h
    have hfresh : p.1 ∉ acc.map Prod.fst := by
      intro hmem
      rw [List.map_append] at h
      rcases List.nodup_append.mp h with ⟨_, _, hdisj⟩
      exact hdisj hmem (by simp)
    have step : pyFoldD acc (p :: rest) = pyFoldD (acc ++ [p]) rest := by
      simp only [pyFoldD, List.foldl_cons]
      rw [pyInsert_not_mem acc p.1 p.2 hfresh]
    rw [step, ih (acc ++ [p]) (by simpa using h)]
    simp

/-- Every entry of the dict after one assignment is an old entry or the
assigned pair. -/
theorem mem_pyInsert :
    ∀ (d : List (Str × Str)) (k v : Str) (q : Str × Str),
    q ∈ pyInsert d k v → q ∈ d ∨ q = (k, v) := by
  intro d
  induction d with
  | nil => intro k v q h; simp [pyInsert] at h; exact Or.inr h
  | cons p rest ih =>
    intro k v q h
    obtain ⟨k0, v0⟩ := p
    by_cases he : k0 = k
    · simp only [pyInsert, if_pos he] at h
      rcases List.mem_cons.mp h with h | h
      · subst he; exact Or.inr h
      · exact Or.inl (List.mem_cons_of_mem _ h)
    · simp only [pyInsert, if_neg he] at h
      rcases List.mem_cons.mp h with h | h
      · exact Or.inl (h ▸ List.mem_cons_self _ _)
      · rcases ih k v q h with h' | h'
        · exact Or.inl (List.mem_cons_of_mem _ h')
        · exact Or.inr h'

/-- Every entry of a folded dict is either from the accumulator or one of the
folded pairs. -/
theorem mem_pyFoldD :
    ∀ (ps acc : List (Str × Str)) (q : Str × Str),
    q ∈ pyFoldD acc ps → q ∈ acc ∨ q ∈ ps := by
  intro ps
  induction ps with
  | nil => intro acc q h; exact Or.inl h
  | cons p rest ih =>
    intro acc q h
    simp only [pyFoldD, List.foldl_cons] at h
    rcases ih (pyInsert acc p.1 p.2) q h with h' | h'
    · rcases mem_pyInsert acc p.1 p.2 q h' with h'' | h''
      · exact Or.inl h''
      · exact Or.inr (by simp [h''])
    · exact Or.inr (List.mem_cons_of_mem _ h')

/-- Reading a key after one assignment. -/
theorem lookupKey_pyInsert (d : List (Str × Str)) (k v k' : Str) :
    lookupKey (pyInsert d k v) k' = if k = k' then some v else lookupKey d k' := by
  induction d with
  | nil => simp [pyInsert, lookupKey]
  | cons p rest ih =>
    obtain ⟨k0, v0⟩ := p
    by_cases he : k0 = k
    · subst he
      show lookupKey (if k0 = k0 then (k0, v) :: rest else (k0, v0) :: pyInsert rest k0 v) k' = _
      rw [if_pos rfl]
      by_cases he' : k0 = k'
      · simp [lookupKey, he']
      · simp [lookupKey, he']
    · show lookupKey (if k0 = k then (k0, v) :: rest else (k0, v0) :: pyInsert rest k v) k' = _
      rw [if_neg he]
      by_cases he' : k0 = k'
      · have hk : ¬ k = k' := fun h => he (he'.trans h.symm)
        simp [lookupKey, he', hk]
      · simp [lookupKey, he', ih]

/-- Reading a key from a concatenation of dict fragments. -/
theorem lookupKey_append :
    ∀ (A B : List (Str × Str)) (k : Str),
    lookupKey (A ++ B) k = (lookupKey A k).or (lookupKey B k) := by
  intro A
  induction A with
  | nil => intro B k; simp [lookupKey]
  | cons p rest ih =>
    intro B k
    obtain ⟨k0, v0⟩ := p
    by_cases he : k0 = k
    · simp [lookupKey, he]
    · simp [lookupKey, he, ih]

/-- Reading an absent key gives nothing. -/
theorem lookupKey_eq_none :
    ∀ (d : List (Str × Str)) (k : Str), k ∉ d.map Prod.fst → lookupKey d k = none := by
  intro d
  induction d with
  | nil => intro k _; rfl
  | cons p rest ih =>
    intro k h
    obtain ⟨k0, v0⟩ := p
    simp only [List.map_cons, List.mem_cons, not_or] at h
    show (if k0 = k then some v0 else lookupKey rest k) = none
    rw [if_neg (show ¬ k0 = k from fun he => h.1 he.symm)]
    exact ih k h.2

/-- Reading a key from a folded dict returns the value of the last folded
pair carrying that key, and otherwise reads the accumulator. -/
theorem lookupKey_pyFoldD :
    ∀ (ps acc : List (Str × Str)) (k : Str),
    lookupKey (pyFoldD acc ps) k = (lookupKey ps.reverse k).or (lookupKey acc k) := by
  intro ps
  induction ps with
  | nil => intro acc k; simp [pyFoldD, lookupKey]
  | cons p rest ih =>
    intro acc k
    simp only [pyFoldD, List.foldl_cons, List.reverse_cons]
    rw [show List.foldl (fun d q => pyInsert d q.1 q.2) (pyInsert acc p.1 p.2) rest
        = pyFoldD (pyInsert acc p.1 p.2) rest from rfl]
    rw [ih (pyInsert acc p.1 p.2) k, lookupKey_pyInsert, lookupKey_append]
    by_cases he : p.1 = k
    · simp [lookupKey, he, Option.or_assoc]
    · simp [lookupKey, he, Option.or_assoc]

/-- The keys after one assignment: unchanged for an old key, appended for a
fresh one. -/
theorem keys_pyInsert (d : List (Str × Str)) (k v : Str) :
    (pyInsert d k v).map Prod.fst
      = if k ∈ d.map Prod.fst then d.map Prod.fst else d.map Prod.fst ++ [k] := by
  induction d with
  | nil => simp [pyInsert]
  | cons p rest ih =>
    obtain ⟨k0, v0⟩ := p
    by_cases he : k0 = k
    · subst he
      simp [pyInsert]
    · show (if k0 = k then (k0, v) :: rest else (k0, v0) :: pyInsert rest k v).map Prod.fst = _
      rw [if_neg he, List.map_cons, ih]
      by_cases hm : k ∈ rest.map Prod.fst
      · rw [if_pos hm, if_pos (show k ∈ ((k0, v0) :: rest).map Prod.fst by
          simp [List.mem_cons, hm])]
        rfl
      · rw [if_neg hm, if_neg (show k ∉ ((k0, v0) :: rest).map Prod.fst by
          simp only [List.map_cons, List.mem_cons, not_or]
          exact ⟨fun h => he h.symm, hm⟩)]
        simp

/-- Folding keeps the dict keys free of duplicates. -/
theorem keys_nodup_pyFoldD :
    ∀ (ps acc : List (Str × Str)), (acc.map Prod.fst).Nodup →
    ((pyFoldD acc ps).map Prod.fst).Nodup := by
  intro ps
  induction ps with
  | nil => intro acc h; exact h
  | cons p rest ih =>
    intro acc h
    simp only [pyFoldD, List.foldl_cons]
    apply ih
    rw [keys_pyInsert]
    by_cases hm : p.1 ∈ acc.map Prod.fst
    · rw [if_pos hm]; exact h
    · rw [if_neg hm]
      rw [List.nodup_append]
      exact ⟨h, List.nodup_singleton _, by
        intro a ha hb
        simp only [List.mem_singleton] at hb
        exact hm (hb ▸ ha)⟩

/-- A successful read means the key occurs among the dict keys. -/
theorem mem_keys_of_lookupKey :
    ∀ (d : List (Str × Str)) (k v : Str), lookupKey d k = some v → k ∈ d.map Prod.fst := by
  intro d
  induction d with
  | nil => intro k v h; simp [lookupKey] at h
  | cons p rest ih =>
    intro k v h
    obtain ⟨k0, v0⟩ := p
    by_cases he : k0 = k
    · simp [he]
    · show k ∈ ((k0, v0) :: rest).map Prod.fst
      simp only [lookupKey, if_neg he] at h
      simp only [List.map_cons, List.mem_cons]
      exact Or.inr (ih k v h)

/-- In a duplicate-free list every member occurs exactly once. -/
theorem count_eq_one_of_nodup_of_mem :
    ∀ (l : List Str) (a : Str), l.Nodup → a ∈ l → l.count a = 1 := by
  intro l
  induction l with
  | nil => intro a _ h; simp at h
  | cons x t ih =>
    intro a hnd hm
    obtain ⟨hx, ht⟩ := List.nodup_cons.mp hnd
    rcases List.mem_cons.mp hm with he | hmem
    · subst he
      rw [List.count_cons_self, List.count_eq_zero.mpr hx]
    · have hne : a ≠ x := fun he => hx (he ▸ hmem)
      rw [List.count_cons, ih a ht hmem]
      simp [hne, Ne.symm hne]

/-- C3: on a synthetic raw text of N well-formed blocks with distinct labels,
`find_documents` returns exactly the N (label, body) pairs in order, each
body being the exact slice of the raw text between the end of the block's
`<DOCUMENT>` marker and the start of its `</DOCUMENT>` marker (the `<TYPE>`
line followed by the content, as `entries_render` establishes from the
slices); and on the empty input it returns the empty mapping. -/
theorem claim_C3 (bs : List Block) (hwf : ∀ b ∈ bs, WFBlock b)
    (hnd : (bs.map Block.label).Nodup) :
    find_documents (render bs) = pairsOf bs
    ∧ (find_documents (render bs)).length = bs.length
    ∧ find_documents [] = [] := by
  have hkeys : (pairsOf bs).map Prod.fst = bs.map Block.label := by
    simp [pairsOf, List.map_map, Function.comp]
  have h1 := find_documents_render bs hwf
  have h2 : pyFoldD [] (pairsOf bs) = pairsOf bs := by
    have h3 := pyFoldD_nodup (pairsOf bs) [] (by simpa [hkeys] using hnd)
    simpa using h3
  refine ⟨h1.trans h2, ?_, rfl⟩
  rw [h1.trans h2]
  simp [pairsOf]

/-- Witness for C3 at two concrete well-formed blocks with distinct labels. -/
theorem claim_C3_witness :
    find_documents (render demoBlocks) = pairsOf demoBlocks
    ∧ (find_documents (render demoBlocks)).length = demoBlocks.length :=
  ⟨(claim_C3 demoBlocks (by decide) (by decide)).1,
   (claim_C3 demoBlocks (by decide) (by decide)).2.1⟩

/-- C6: when a well-formed rendered submission contains two blocks with the
same label (the second being the last one carrying that label), the mapping
holds that label exactly once, bound to the body of the later block; the
earlier body is overwritten. -/
theorem claim_C6 (xs ys zs : List Block) (b b' : Block) (L : Str)
    (hwf : ∀ x ∈ xs ++ b :: (ys ++ b' :: zs), WFBlock x)
    (_hb : b.label = L) (hb' : b'.label = L) (hz : L ∉ zs.map Block.label) :
    lookupKey (find_documents (render (xs ++ b :: (ys ++ b' :: zs)))) L
      = some (typeTag ++ (L ++ ('\n' :: b'.content)))
    ∧ ((find_documents (render (xs ++ b :: (ys ++ b' :: zs)))).map Prod.fst).count L = 1 := by
  have h1 := find_documents_render _ hwf
  have hlook : lookupKey (find_documents (render (xs ++ b :: (ys ++ b' :: zs)))) L
      = some (typeTag ++ (L ++ ('\n' :: b'.content))) := by
    rw [h1, lookupKey_pyFoldD]
    rw [show lookupKey ([] : List (Str × Str)) L = none from rfl, Option.or_none]
    have hps : pairsOf (xs ++ b :: (ys ++ b' :: zs))
        = (pairsOf xs ++ (b.label, typeTag ++ (b.label ++ ('\n' :: b.content))) :: pairsOf ys)
            ++ (L, typeTag ++ (L ++ ('\n' :: b'.content))) :: pairsOf zs := by
      simp [pairsOf, hb']
    rw [hps]
    have hzrev : L ∉ ((pairsOf zs).reverse).map Prod.fst := by
      simp only [List.map_reverse, List.mem_reverse]
      simpa [pairsOf, List.map_map, Function.comp] using hz
    rw [List.reverse_append, List.reverse_cons, lookupKey_append, lookupKey_append,
      lookupKey_eq_none _ _ hzrev]
    simp [lookupKey]
  refine ⟨hlook, ?_⟩
  have hnd := keys_nodup_pyFoldD (pairsOf (xs ++ b :: (ys ++ b' :: zs))) [] (by simp)
  have hmem := mem_keys_of_lookupKey _ L _ hlook
  rw [h1]
  rw [h1] at hmem
  exact count_eq_one_of_nodup_of_mem _ _ hnd hmem

/-- Witness for C6 at two concrete blocks both labelled `8-K`: the stored
body is the later one. -/
theorem claim_C6_witness :
    lookupKey (find_documents (render demoDupBlocks)) ['8', '-', 'K']
      = some (typeTag ++ (['8', '-', 'K'] ++ ('\n' :: ['n', 'e', 'w'])))
    ∧ ((find_documents (render demoDupBlocks)).map Prod.fst).count ['8', '-', 'K'] = 1 :=
  claim_C6 [] [] [] ⟨['8', '-', 'K'], ['o', 'l', 'd']⟩ ⟨['8', '-', 'K'], ['n', 'e', 'w']⟩
    ['8', '-', 'K'] (by decide) rfl rfl (by decide)

/-- C7 amended: on well-formed rendered submissions every key of the mapping
is the label written inside its own block (the text between the start of the
stored body and the first line break, with the `<TYPE>` tag stripped); on
arbitrary raw texts this fails because labels are scanned globally, see the
stray-label counterexample. -/
theorem claim_C7_amended (bs : List Block) (hwf : ∀ b ∈ bs, WFBlock b) :
    ∀ p ∈ find_documents (render bs), p.1 = inBlockTypeLabel p.2 := by
  intro p hp
  rw [find_documents_render bs hwf] at hp
  rcases mem_pyFoldD (pairsOf bs) [] p hp with h | h
  · simp at h
  · obtain ⟨b, hb, hpb⟩ := List.mem_map.mp h
    obtain ⟨hlne, hlnl, _, _⟩ := hwf b hb
    subst hpb
    rw [inBlockTypeLabel]
    have hall : ∀ x ∈ typeTag ++ b.label, (fun ch => ch != '\n') x = true := by
      intro x hx
      simp only [bne_iff_ne, ne_eq, decide_eq_true_eq]
      rcases List.mem_append.mp hx with hx | hx
      · have hnt : '\n' ∉ typeTag := by decide
        exact fun he => hnt (he ▸ hx)
      · exact fun he => hlnl (he ▸ hx)
    have hshape : typeTag ++ (b.label ++ ('\n' :: b.content))
        = (typeTag ++ b.label) ++ ('\n' :: b.content) := by simp
    have htw := takeWhile_append_cons (fun ch => ch != '\n') (typeTag ++ b.label) hall
      '\n' (by simp) b.content
    show b.label = ((typeTag ++ (b.label ++ ('\n' :: b.content))).takeWhile
      (fun ch => ch != '\n')).drop typeTag.length
    rw [hshape, htw, List.drop_left]

/-- Witness for C7 amended at the first entry of the two-block demo. -/
theorem claim_C7_amended_witness :
    (['8', '-', 'K'], typeTag ++ (['8', '-', 'K'] ++ ('\n' :: ['f', 'o', 'o']))).1
      = inBlockTypeLabel
          (['8', '-', 'K'], typeTag ++ (['8', '-', 'K'] ++ ('\n' :: ['f', 'o', 'o']))).2 :=
  claim_C7_amended demoBlocks (by decide) _ (by decide)

/-- C10: every body stored by `find_documents` for a well-formed rendered
submission begins right after the `<DOCUMENT>` marker, so the `<TYPE>` label
line (tag, key and line break) is a prefix of the stored body - segmentation
never strips the type line. -/
theorem claim_C10 (bs : List Block) (hwf : ∀ b ∈ bs, WFBlock b) :
    ∀ p ∈ find_documents (render bs), ∃ t, p.2 = (typeTag ++ (p.1 ++ ['\n'])) ++ t := by
  intro p hp
  rw [find_documents_render bs hwf] at hp
  rcases mem_pyFoldD (pairsOf bs) [] p hp with h | h
  · simp at h
  · obtain ⟨b, hb, hpb⟩ := List.mem_map.mp h
    subst hpb
    exact ⟨b.content, by simp⟩

/-- Witness for C10 at the first entry of the two-block demo. -/
theorem claim_C10_witness :
    ∃ t, (typeTag ++ (['8', '-', 'K'] ++ ('\n' :: ['f', 'o', 'o'])))
      = (typeTag ++ (['8', '-', 'K'] ++ ['\n'])) ++ t :=
  claim_C10 demoBlocks (by decide)
    (['8', '-', 'K'], typeTag ++ (['8', '-', 'K'] ++ ('\n' :: ['f', 'o', 'o']))) (by decide)
